import Mathlib

/-!
Shallow embedding of `src/aggregate.py` (word aggregation by representative
name) and proofs about it.  The embedding covers:

* `expand_ambiguity` / `product_tuple` — the combinatorial candidate expander;
* `aggregate` — the incremental first-match-wins clustering fold, the
  identifier-to-id map and the final per-word lookup;
* `kansuji2arabic` with its helper `_transvalue` — the kanji-numeral
  converter (digit translation, maximal-run extraction, right-to-left
  scan-and-flush evaluation, longest-first replacement, width
  re-normalization);
* the per-morpheme candidate construction of `get_repname_set`.

Python `set`s of strings are modelled as `Finset String`; the dict
`repname2id` (whose later inserts overwrite earlier ones) is modelled by a
lookup returning the last cluster index containing a key.  Fallible code
(`KeyError` / `IndexError`) is modelled with `Option`.
-/

namespace NameAgg

/-! ### CandidateExpander: `product_tuple` and `expand_ambiguity` -/

/-- Embedding of `product_tuple(t1, t2)`:
`tuple([_t1 + _t2 for _t1 in t1 for _t2 in t2])`. -/
def product_tuple (t1 t2 : List String) : List String :=
  t1.flatMap (fun a => t2.map (fun b => a ++ b))

/-- Embedding of `expand_ambiguity(repname)`: start from `('',)` and take the
iterated cross product with each morpheme's candidate tuple. -/
def expand_ambiguity (repname : List (List String)) : List String :=
  repname.foldl product_tuple [""]

/-! ### WordClusterer: the clustering fold of `aggregate` -/

/-- One step of the clustering fold (the inner `for ... else` loop of
`aggregate`): scan `clusters` in order; at the first cluster with a
nonempty intersection with `S`, replace it in place by the union and stop;
if no cluster intersects `S`, append `S` at the end. -/
def mergeStep (clusters : List (Finset String)) (S : Finset String) :
    List (Finset String) :=
  match clusters with
  | [] => [S]
  | C :: rest => if 0 < (S ∩ C).card then (S ∪ C) :: rest else C :: mergeStep rest S

/-- The clustering fold: `repname_sets_to_merge` after the first loop of
`aggregate`, started from the first word's candidate set. -/
def buildClusters (S0 : Finset String) (rest : List (Finset String)) :
    List (Finset String) :=
  rest.foldl mergeStep [S0]

/-- The final cluster list of `aggregate` for a list of candidate tuples
(the source indexes `repname_sets[0]`, so the empty input is modelled by an
empty cluster list; the source would raise `IndexError` there). -/
def aggClusters (repname_sets : List (List String)) : List (Finset String) :=
  match repname_sets with
  | [] => []
  | s0 :: rest => buildClusters s0.toFinset (rest.map (fun s => s.toFinset))

/-- Helper for `repname2id`: the id assigned to `x` by the dict built in the
second loop of `aggregate`.  Iterating clusters in order and overwriting on
re-insertion means `x` ends up mapped to the **last** cluster index
containing it; a key in no cluster is absent (`none`). -/
def repname2idAux (i : Nat) (clusters : List (Finset String)) (x : String) :
    Option Nat :=
  match clusters with
  | [] => none
  | C :: rest =>
    match repname2idAux (i + 1) rest x with
    | some j => some j
    | none => if x ∈ C then some i else none

/-- Embedding of the `repname2id` dict lookup. -/
def repname2id (clusters : List (Finset String)) (x : String) : Option Nat :=
  repname2idAux 0 clusters x

/-- The third loop of `aggregate`: pair each word with
`repname2id[repname_set[0]]`.  A missing key (Python `KeyError`) or an empty
candidate tuple (Python `IndexError`) yields `none`. -/
def assignIds (clusters : List (Finset String)) :
    List (String × List String) → Option (List (String × Nat))
  | [] => some []
  | (w, t) :: rest => do
    let r ← t.head?
    let i ← repname2id clusters r
    let out ← assignIds clusters rest
    pure ((w, i) :: out)

/-- Embedding of `aggregate(words, repname_sets)`. -/
def aggregate (words : List String) (repname_sets : List (List String)) :
    Option (List (String × Nat)) :=
  match repname_sets with
  | [] => none
  | s0 :: rest => assignIds (aggClusters (s0 :: rest)) (words.zip (s0 :: rest))

/-- Boolean trace condition on a run of the clustering fold: at every step,
the incoming candidate set intersects at most one of the current clusters. -/
def atMostOneOverlap (clusters : List (Finset String)) :
    List (Finset String) → Bool
  | [] => true
  | S :: rest =>
    decide (clusters.countP (fun C => 0 < (S ∩ C).card) ≤ 1) &&
      atMostOneOverlap (mergeStep clusters S) rest

/-! ### NumeralConverter: character classes and helpers -/

/-- Decimal digit characters of this pipeline: ASCII digits and their
full-width forms (the `\d` / `str.isdecimal` class restricted to the
characters that occur here). -/
def isDigitCh (c : Char) : Bool :=
  (48 ≤ c.toNat && c.toNat ≤ 57) || (0xFF10 ≤ c.toNat && c.toNat ≤ 0xFF19)

/-- Numeric value of a decimal digit character. -/
def digitVal (c : Char) : Nat :=
  if 48 ≤ c.toNat && c.toNat ≤ 57 then c.toNat - 48
  else if 0xFF10 ≤ c.toNat && c.toNat ≤ 0xFF19 then c.toNat - 0xFF10
  else 0

/-- Python `int` on a string of decimal digits. -/
def digitsToNat (ds : List Char) : Nat :=
  ds.foldl (fun a c => a * 10 + digitVal c) 0

/-- Python `str.isdecimal`. -/
def isDecimalStr (s : List Char) : Bool := !s.isEmpty && s.all isDigitCh

/-- The small-unit dictionary `TRANSUNIT`. -/
def TRANSUNIT (c : Char) : Option Nat :=
  if c = '十' then some 10 else if c = '拾' then some 10
  else if c = '百' then some 100 else if c = '千' then some 1000 else none

/-- The large-unit dictionary `TRANSMANS`. -/
def TRANSMANS (c : Char) : Option Nat :=
  if c = '万' then some 10000 else if c = '億' then some 100000000
  else if c = '兆' then some 1000000000000 else none

/-- Membership in `TRANSUNIT` (the `[十拾百千]` alternative of `re_kunit`). -/
def isKUnitCh (c : Char) : Bool := (TRANSUNIT c).isSome

/-- Membership in `TRANSMANS` (the `[万億兆]` alternative of `re_manshin`). -/
def isManCh (c : Char) : Bool := (TRANSMANS c).isSome

/-- The character class of the run regex `re_suji = [十拾百千万億兆\d]+`. -/
def isNumeralCh (c : Char) : Bool := isKUnitCh c || isManCh c || isDigitCh c

/-- The digit translation table `tt_ksuji`. -/
def ttKsuji (c : Char) : Char :=
  if c = '一' then '1' else if c = '二' then '2' else if c = '三' then '3'
  else if c = '四' then '4' else if c = '五' then '5' else if c = '六' then '6'
  else if c = '七' then '7' else if c = '八' then '8' else if c = '九' then '9'
  else if c = '〇' then '0' else if c = '壱' then '1' else if c = '弐' then '2'
  else if c = '参' then '3' else c

/-- Models the external `zenhan.h2z` collaborator (the half-width to
full-width width-normalization step of the spec): printable ASCII maps to
its full-width form, the space to the ideographic space, everything else is
unchanged. -/
def h2zChar (c : Char) : Char :=
  if c = ' ' then '　'
  else if 0x21 ≤ c.toNat && c.toNat ≤ 0x7E then Char.ofNat (c.toNat + 0xFEE0)
  else c

/-- `zenhan.h2z` over a character list. -/
def h2zList (s : List Char) : List Char := s.map h2zChar

/-- A decimal digit character from a value below ten. -/
def digitCh (n : Nat) : Char := Char.ofNat (48 + n)

/-- Fueled decimal spelling of a natural number. -/
def natDigitsAux : Nat → Nat → List Char
  | 0, _ => []
  | f + 1, n =>
    if n < 10 then [digitCh n]
    else natDigitsAux f (n / 10) ++ [digitCh (n % 10)]

/-- Python `str` of a natural number (the `str(arabic)` write-back). -/
def natDigits (n : Nat) : List Char := natDigitsAux (n + 1) n

/-! ### NumeralConverter: tokenization (`re.findall`) -/

/-- A token of `re_kunit = [十拾百千]|\d+`: a single small-unit character
or a maximal digit run. -/
inductive KTok
  | unit (c : Char)
  | num (ds : List Char)
deriving DecidableEq

/-- A token of `re_manshin = [万億兆]|[^万億兆]+`: a single large-unit
character or a maximal run of other characters. -/
inductive MTok
  | unit (c : Char)
  | chunk (p : List Char)
deriving DecidableEq

/-- One step (from the right) of `re_kunit.findall`; the Bool records
whether the position immediately to the right begins a digit run, so an
adjacent digit extends that run. -/
def kunitTokensStep (c : Char) (st : List KTok × Bool) : List KTok × Bool :=
  if isKUnitCh c then (KTok.unit c :: st.1, false)
  else if isDigitCh c then
    match st with
    | (KTok.num ds :: ts, true) => (KTok.num (c :: ds) :: ts, true)
    | (ts, _) => (KTok.num [c] :: ts, true)
  else (st.1, false)

/-- `re_kunit.findall`: small-unit characters and maximal digit runs, in
order; characters matching neither alternative are skipped. -/
def kunitTokens (s : List Char) : List KTok :=
  (s.foldr kunitTokensStep ([], false)).1

/-- One step (from the right) of `re_manshin.findall`. -/
def manshinTokensStep (c : Char) (st : List MTok × Bool) : List MTok × Bool :=
  if isManCh c then (MTok.unit c :: st.1, false)
  else
    match st with
    | (MTok.chunk p :: ts, true) => (MTok.chunk (c :: p) :: ts, true)
    | (ts, _) => (MTok.chunk [c] :: ts, true)

/-- `re_manshin.findall`: large-unit characters and maximal runs of other
characters, in order (every character matches one alternative). -/
def manshinTokens (s : List Char) : List MTok :=
  (s.foldr manshinTokensStep ([], false)).1

/-! ### NumeralConverter: the `_transvalue` scan -/

/-- The final flush of the `_transvalue` scan:
`if unit > 1: result += unit`.  The state is `(unit, result)`. -/
def unitFlush (st : Nat × Nat) : Nat := st.2 + if 1 < st.1 then st.1 else 0

/-- One token of the small-unit scan (`_transvalue` with the default
`re_kunit`/`TRANSUNIT` arguments): a unit flushes a pending multiplier
greater than one and becomes the new pending multiplier; a digit run
contributes `int(piece) * unit` and resets the multiplier. -/
def kunitStep (st : Nat × Nat) (t : KTok) : Nat × Nat :=
  match t with
  | KTok.unit c => ((TRANSUNIT c).getD 1, st.2 + if 1 < st.1 then st.1 else 0)
  | KTok.num ds => (1, st.2 + digitsToNat ds * st.1)

/-- Value of a small-unit token list: right-to-left scan plus final flush. -/
def evalKunitToks (ts : List KTok) : Nat :=
  unitFlush (ts.reverse.foldl kunitStep (1, 0))

/-- Embedding of `_transvalue(sj)` at the default small-unit level. -/
def transvalueKunit (s : List Char) : Nat := evalKunitToks (kunitTokens s)

/-- One token of the large-unit scan (`_transvalue(suji, re_manshin,
TRANSMANS)`); a non-unit chunk is evaluated as a literal integer when
decimal and recursively by the small-unit scan otherwise. -/
def manshinStep (st : Nat × Nat) (t : MTok) : Nat × Nat :=
  match t with
  | MTok.unit c => ((TRANSMANS c).getD 1, st.2 + if 1 < st.1 then st.1 else 0)
  | MTok.chunk p =>
    (1, st.2 + (if isDecimalStr p then digitsToNat p else transvalueKunit p) * st.1)

/-- Value of a large-unit token list: right-to-left scan plus final flush. -/
def evalManToks (ts : List MTok) : Nat :=
  unitFlush (ts.reverse.foldl manshinStep (1, 0))

/-- Embedding of `_transvalue(suji, re_manshin, TRANSMANS)`. -/
def transvalueMan (s : List Char) : Nat := evalManToks (manshinTokens s)

/-! ### NumeralConverter: runs, replacement, and the full converter -/

/-- One step (from the right) of splitting a string into its maximal
numeral runs with the separators kept: the state is the decomposition of
the current suffix as (separator, run) pairs plus a trailing separator. -/
def decompStep (c : Char) (st : List (List Char × List Char) × List Char) :
    List (List Char × List Char) × List Char :=
  if isNumeralCh c then
    match st.1 with
    | (s, r) :: d =>
      if s.isEmpty then (([], c :: r) :: d, st.2)
      else (([], [c]) :: (s, r) :: d, st.2)
    | [] => ([([], [c])], st.2)
  else
    match st.1 with
    | (s, r) :: d => ((c :: s, r) :: d, st.2)
    | [] => ([], c :: st.2)

/-- Decomposition of a string into maximal numeral runs and the separators
around them. -/
def decompose (s : List Char) : List (List Char × List Char) × List Char :=
  s.foldr decompStep ([], [])

/-- Reassemble a decomposition. -/
def flat (D : List (List Char × List Char)) (send : List Char) : List Char :=
  D.foldr (fun p acc => p.1 ++ p.2 ++ acc) send

/-- `re_suji.findall`: the maximal numeral runs of `s`, in order. -/
def runsOf (s : List Char) : List (List Char) :=
  (decompose s).1.map (fun p => p.2)

/-- Fueled Python `str.replace` (all occurrences, leftmost first,
non-overlapping); the fuel is an upper bound on the length of `s`. -/
def replaceAllAux (pat rep : List Char) : Nat → List Char → List Char
  | 0, s => s
  | f + 1, s =>
    match s with
    | [] => []
    | c :: rest =>
      if pat ≠ [] ∧ pat.isPrefixOf (c :: rest) then
        rep ++ replaceAllAux pat rep f ((c :: rest).drop pat.length)
      else c :: replaceAllAux pat rep f rest

/-- Python `host.replace(pat, rep)`. -/
def replaceAll (pat rep s : List Char) : List Char :=
  replaceAllAux pat rep s.length s

/-- One iteration of the replacement loop of `kansuji2arabic`: a distinct
run that is not purely decimal is replaced everywhere in the host by the
decimal spelling of its large-unit `_transvalue`. -/
def applyRun (host : List Char) (r : List Char) : List Char :=
  if isDecimalStr r then host
  else replaceAll r (natDigits (transvalueMan r)) host

/-- The value written back for one run by the replacement loop: a decimal
run is left alone, any other run becomes the decimal spelling of its
value. -/
def substRun (r : List Char) : List Char :=
  if isDecimalStr r then r else natDigits (transvalueMan r)

/-- Region contents after the runs in `Q` have been processed: a processed
run shows its substituted value, an unprocessed one its original text. -/
def substIf (Q : List (List Char)) (r : List Char) : List Char :=
  if r ∈ Q then substRun r else r

/-- The `key=len, reverse=True` sort order of the replacement loop. -/
def lenGE (a b : List Char) : Prop := b.length ≤ a.length

instance : DecidableRel lenGE := fun a b => Nat.decLe b.length a.length

instance : IsTotal (List Char) lenGE :=
  ⟨fun a b => (Nat.le_total b.length a.length).elim Or.inl Or.inr⟩

instance : IsTrans (List Char) lenGE :=
  ⟨fun _ _ _ h1 h2 => Nat.le_trans h2 h1⟩

/-- Embedding of `kansuji2arabic` on character lists: translate digit
characters, replace every distinct non-decimal maximal numeral run of the
translated string (longest first; the source's tie order among runs of
equal length is an unspecified set-iteration order, immaterial by
`kansuji_replace_order_independent`), and re-normalize widths. -/
def kansujiList (s : List Char) : List Char :=
  let t := s.map ttKsuji
  h2zList (((runsOf t).dedup.insertionSort lenGE).foldl applyRun t)

/-- Embedding of `kansuji2arabic` on strings. -/
def kansuji2arabic (s : String) : String := String.mk (kansujiList s.data)

/-! ### MorphAnalysisAdapter: per-morpheme candidates -/

/-- A morpheme as read by the loop of `get_repname_set`: the analyzer
(pyknp Juman++) is an external collaborator, so a morpheme is modelled by
the three attributes the loop consumes. -/
structure Morpheme where
  bunrui : String
  midasi : String
  repnames : String
deriving DecidableEq

/-- The candidate tuple built for one morpheme in `get_repname_set`: a
numeral morpheme decomposes the converted number into one single-character
candidate per character; a morpheme with repnames splits them on `?`; any
other morpheme contributes its surface as the only candidate. -/
def morphemeCandidates (m : Morpheme) : List String :=
  if m.bunrui = "数詞" then
    (kansuji2arabic m.midasi).data.map (fun c => String.mk [c])
  else if m.repnames ≠ "" then m.repnames.splitOn "?"
  else [m.midasi]

/-- The per-word candidate tuples of `get_repname_set`, given the analyzer
output for each word. -/
def get_repname_set (analyses : List (List Morpheme)) : List (List String) :=
  analyses.map (fun mrphs => expand_ambiguity (mrphs.map morphemeCandidates))

/-! ### Lemmas about the clustering fold -/

theorem mergeStep_mem_of_mem_S (clusters : List (Finset String))
    (S : Finset String) (x : String) (hx : x ∈ S) :
    ∃ C ∈ mergeStep clusters S, x ∈ C := by
  induction clusters with
  | nil => exact ⟨S, by simp [mergeStep], hx⟩
  | cons C rest ih =>
    by_cases h : 0 < (S ∩ C).card
    · exact ⟨S ∪ C, by simp [mergeStep, h], Finset.mem_union_left _ hx⟩
    · obtain ⟨C', hC', hxC'⟩ := ih
      exact ⟨C', by simp [mergeStep, h, hC'], hxC'⟩

theorem mergeStep_mem_preserved (clusters : List (Finset String))
    (S : Finset String) (x : String) (h : ∃ C ∈ clusters, x ∈ C) :
    ∃ C' ∈ mergeStep clusters S, x ∈ C' := by
  induction clusters with
  | nil => simp at h
  | cons C rest ih =>
    obtain ⟨C0, hC0, hx0⟩ := h
    by_cases hc : 0 < (S ∩ C).card
    · rcases List.mem_cons.mp hC0 with h0 | h0
      · exact ⟨S ∪ C, by simp [mergeStep, hc], h0 ▸ Finset.mem_union_right _ hx0⟩
      · exact ⟨C0, by simp [mergeStep, hc, h0], hx0⟩
    · rcases List.mem_cons.mp hC0 with h0 | h0
      · exact ⟨C, by simp [mergeStep, hc], h0 ▸ hx0⟩
      · obtain ⟨C', hC', hx'⟩ := ih ⟨C0, h0, hx0⟩
        exact ⟨C', by simp [mergeStep, hc, hC'], hx'⟩

theorem foldl_mergeStep_covers (l : List (Finset String)) :
    ∀ (cs : List (Finset String)) (x : String),
      ((∃ C ∈ cs, x ∈ C) ∨ (∃ S ∈ l, x ∈ S)) →
      ∃ C ∈ l.foldl mergeStep cs, x ∈ C := by
  induction l with
  | nil =>
    intro cs x h
    simpa using h.resolve_right (by simp)
  | cons S l' ih =>
    intro cs x h
    rw [List.foldl_cons]
    rcases h with h | ⟨T, hT, hxT⟩
    · exact ih _ x (Or.inl (mergeStep_mem_preserved cs S x h))
    · rcases List.mem_cons.mp hT with h0 | h0
      · exact ih _ x (Or.inl (mergeStep_mem_of_mem_S cs S x (h0 ▸ hxT)))
      · exact ih _ x (Or.inr ⟨T, h0, hxT⟩)

theorem repname2idAux_isSome (x : String) :
    ∀ (clusters : List (Finset String)) (i : Nat),
      (∃ C ∈ clusters, x ∈ C) → (repname2idAux i clusters x).isSome := by
  intro clusters
  induction clusters with
  | nil => simp
  | cons C rest ih =>
    intro i h
    obtain ⟨C0, hC0, hx0⟩ := h
    rcases List.mem_cons.mp hC0 with h0 | h0
    · unfold repname2idAux
      cases hrec : repname2idAux (i + 1) rest x with
      | some j => simp
      | none => simp [h0 ▸ hx0]
    · have := ih (i + 1) ⟨C0, h0, hx0⟩
      unfold repname2idAux
      cases hrec : repname2idAux (i + 1) rest x with
      | some j => simp
      | none => rw [hrec] at this; simp at this

theorem assignIds_isSome (clusters : List (Finset String)) :
    ∀ L : List (String × List String),
      (∀ p ∈ L, ∃ r, p.2.head? = some r ∧ (repname2id clusters r).isSome) →
      (assignIds clusters L).isSome := by
  intro L
  induction L with
  | nil => simp [assignIds]
  | cons p L' ih =>
    intro h
    obtain ⟨r, hr, hsome⟩ := h p (List.mem_cons_self p L')
    obtain ⟨i, hi⟩ := Option.isSome_iff_exists.mp hsome
    have hrest := ih (fun q hq => h q (List.mem_cons_of_mem p hq))
    obtain ⟨out, hout⟩ := Option.isSome_iff_exists.mp hrest
    obtain ⟨w, t⟩ := p
    simp only [assignIds, hr, hi, hout, Option.bind_some]
    simp [hi]

/-! ### Claim theorems: clustering and expansion -/

/-- Claim C1: in the clustering fold, a word's candidate set `S` is merged
(by in-place union) only into the first cluster, in creation order, that it
intersects; every other cluster — in particular a later cluster that `S`
also intersects — is left unchanged, so the two clusters remain separate in
this pass; and if `S` intersects no cluster it is appended as a new
cluster. -/
theorem mergeStep_first_match_policy (clusters : List (Finset String))
    (S : Finset String) :
    (∀ i, ∀ hi : i < clusters.length,
      (∀ k, ∀ hk : k < i, S ∩ clusters.get ⟨k, hk.trans hi⟩ = ∅) →
      0 < (S ∩ clusters.get ⟨i, hi⟩).card →
      mergeStep clusters S = clusters.set i (S ∪ clusters.get ⟨i, hi⟩)
      ∧ ∀ j, j < clusters.length → j ≠ i →
          (mergeStep clusters S)[j]? = clusters[j]?)
    ∧ ((∀ C ∈ clusters, S ∩ C = ∅) → mergeStep clusters S = clusters ++ [S]) := by
  induction clusters with
  | nil =>
    refine ⟨fun i hi => absurd hi (Nat.not_lt_zero i), fun _ => by simp [mergeStep]⟩
  | cons C rest ih =>
    constructor
    · intro i hi hks hinter
      match i with
      | 0 =>
        simp only [List.get] at hinter ⊢
        refine ⟨by simp [mergeStep, hinter], ?_⟩
        intro j hj hji
        match j with
        | j' + 1 => simp [mergeStep, hinter]
      | i' + 1 =>
        have hC : S ∩ C = ∅ := hks 0 (Nat.succ_pos i')
        have hCcard : ¬ 0 < (S ∩ C).card := by simp [hC]
        have hrec := (ih.1 i' (Nat.lt_of_succ_lt_succ hi)
          (fun k hk => hks (k + 1) (Nat.succ_lt_succ hk))) hinter
        refine ⟨?_, ?_⟩
        · simp only [mergeStep, if_neg hCcard, List.set_cons_succ]
          exact congrArg (C :: ·) hrec.1
        · intro j hj hji
          match j with
          | 0 => simp [mergeStep, hCcard]
          | j' + 1 =>
            have := hrec.2 j' (Nat.lt_of_succ_lt_succ hj)
              (fun h => hji (congrArg (· + 1) h))
            simp only [mergeStep, if_neg hCcard, List.getElem?_cons_succ]
            exact this
    · intro hall
      have hC : S ∩ C = ∅ := hall C (List.mem_cons_self C rest)
      have hCcard : ¬ 0 < (S ∩ C).card := by simp [hC]
      have := ih.2 (fun D hD => hall D (List.mem_cons_of_mem C hD))
      simp [mergeStep, hCcard, this]

/-- Witness for C1: with clusters `[{a}, {b}, {c}]` and `S = {b, c}`
intersecting both cluster 1 and cluster 2, only cluster 1 is merged and
cluster 2 survives unchanged; a disjoint `S' = {z}` is appended. -/
theorem mergeStep_first_match_policy_w :
    (mergeStep [{"a"}, {"b"}, {"c"}] {"b", "c"} =
      ([{"a"}, {"b"}, {"c"}] : List (Finset String)).set 1 ({"b", "c"} ∪ {"b"})
      ∧ (mergeStep [{"a"}, {"b"}, {"c"}] {"b", "c"})[2]? =
          ([{"a"}, {"b"}, {"c"}] : List (Finset String))[2]?)
    ∧ mergeStep [{"a"}, {"b"}, {"c"}] {"z"} =
        ([{"a"}, {"b"}, {"c"}] : List (Finset String)) ++ [{"z"}] := by
  have h := mergeStep_first_match_policy [{"a"}, {"b"}, {"c"}] {"b", "c"}
  have h1 := h.1 1 (by decide)
    (by
      intro k hk
      have hk0 : k = 0 := by omega
      subst hk0
      show ({"b", "c"} : Finset String) ∩ {"a"} = ∅
      decide)
    (by
      show 0 < (({"b", "c"} : Finset String) ∩ {"b"}).card
      decide)
  refine ⟨⟨h1.1, h1.2 2 (by decide) (by decide)⟩, ?_⟩
  exact (mergeStep_first_match_policy [{"a"}, {"b"}, {"c"}] {"z"}).2 (by decide)

/-- Claim C2: on candidate tuples `("A","B")`, `("B","C")`, `("D")` the
aggregation assigns cluster ids `[0, 0, 1]`: the first two words share
cluster 0 and the third word gets cluster 1. -/
theorem aggregate_concrete_example :
    aggregate ["w0", "w1", "w2"] [["A", "B"], ["B", "C"], ["D"]] =
      some [("w0", 0), ("w1", 0), ("w2", 1)] := by decide

theorem string_join_cons (a : String) (l : List String) :
    String.join (a :: l) = a ++ String.join l := by
  rw [String.join_eq, String.join_eq]
  cases a with
  | mk d => apply congrArg; simp [String.append]

theorem product_tuple_length (t1 t2 : List String) :
    (product_tuple t1 t2).length = t1.length * t2.length := by
  induction t1 with
  | nil => simp [product_tuple]
  | cons a t1' ih =>
    simp only [product_tuple, List.flatMap_cons, List.length_append,
      List.length_map, List.length_cons] at ih ⊢
    rw [ih]
    ring

theorem product_tuple_head (t1 t2 : List String) (h1 : t1 ≠ []) (h2 : t2 ≠ []) :
    (product_tuple t1 t2).head? = some (t1.headI ++ t2.headI)
    ∧ product_tuple t1 t2 ≠ [] := by
  obtain ⟨a, t1', rfl⟩ := List.exists_cons_of_ne_nil h1
  obtain ⟨b, t2', rfl⟩ := List.exists_cons_of_ne_nil h2
  simp [product_tuple]

theorem foldl_product_tuple_length (rs : List (List String)) :
    ∀ acc : List String,
      (rs.foldl product_tuple acc).length = acc.length * (rs.map List.length).prod := by
  induction rs with
  | nil => intro acc; simp
  | cons t rs' ih =>
    intro acc
    simp only [List.foldl_cons, List.map_cons, List.prod_cons]
    rw [ih, product_tuple_length]
    ring

theorem foldl_product_tuple_head (rs : List (List String))
    (h : ∀ t ∈ rs, t ≠ []) :
    ∀ acc : List String, acc ≠ [] →
      (rs.foldl product_tuple acc).head? =
        some (acc.headI ++ String.join (rs.map List.headI))
      ∧ rs.foldl product_tuple acc ≠ [] := by
  induction rs with
  | nil =>
    intro acc hacc
    obtain ⟨a, acc', rfl⟩ := List.exists_cons_of_ne_nil hacc
    simp [String.join]
  | cons t rs' ih =>
    intro acc hacc
    have ht : t ≠ [] := h t (List.mem_cons_self t rs')
    have hstep := product_tuple_head acc t hacc ht
    have hmore := ih (fun u hu => h u (List.mem_cons_of_mem t hu))
      (product_tuple acc t) hstep.2
    simp only [List.foldl_cons]
    refine ⟨?_, hmore.2⟩
    rw [hmore.1]
    have : (product_tuple acc t).headI = acc.headI ++ t.headI := by
      have := hstep.1
      cases hpt : product_tuple acc t with
      | nil => exact absurd hpt hstep.2
      | cons x xs => simp [hpt] at this; simp [this]
    rw [this]
    simp only [List.map_cons, string_join_cons, String.append_assoc]

/-- Claim C4: for non-empty per-morpheme candidate tuples, `expand_ambiguity`
returns a tuple whose length is the product of the per-morpheme candidate
counts, whose first element is the concatenation of every morpheme's first
candidate, and which on `[("a","b"), ("x")]` is exactly `("ax", "bx")` (the
iterative cross-product order). -/
theorem expand_ambiguity_spec (rs : List (List String))
    (h : ∀ t ∈ rs, t ≠ []) :
    (expand_ambiguity rs).length = (rs.map List.length).prod
    ∧ (expand_ambiguity rs).head? = some (String.join (rs.map List.headI))
    ∧ expand_ambiguity [["a", "b"], ["x"]] = ["ax", "bx"] := by
  refine ⟨?_, ?_, by decide⟩
  · rw [expand_ambiguity, foldl_product_tuple_length]
    simp
  · rw [expand_ambiguity]
    have := (foldl_product_tuple_head rs h [""] (by simp)).1
    rw [this]
    simp

/-- Witness for C4 at the concrete input `[("a","b"), ("x")]`. -/
theorem expand_ambiguity_spec_w :
    (expand_ambiguity [["a", "b"], ["x"]]).length =
      ([["a", "b"], ["x"]].map List.length).prod
    ∧ (expand_ambiguity [["a", "b"], ["x"]]).head? =
        some (String.join ([["a", "b"], ["x"]].map List.headI))
    ∧ expand_ambiguity [["a", "b"], ["x"]] = ["ax", "bx"] :=
  expand_ambiguity_spec [["a", "b"], ["x"]] (by decide)

/-- Claim C5: for a non-empty list of non-empty candidate tuples, every
candidate string of every word — in particular every word's primary
candidate — is a key of the identifier-to-id map, so the final per-word
lookup of `aggregate` never fails (the `KeyError` branch is unreachable). -/
theorem aggregate_lookup_total (words : List String)
    (rs : List (List String)) (hne : rs ≠ [])
    (hall : ∀ t ∈ rs, t ≠ []) :
    (∀ t ∈ rs, ∀ x ∈ t, (repname2id (aggClusters rs) x).isSome)
    ∧ (aggregate words rs).isSome := by
  obtain ⟨s0, rest, rfl⟩ := List.exists_cons_of_ne_nil hne
  have hkey : ∀ t ∈ s0 :: rest, ∀ x ∈ t,
      (repname2id (aggClusters (s0 :: rest)) x).isSome := by
    intro t ht x hx
    have hcover : ∃ C ∈ aggClusters (s0 :: rest), x ∈ C := by
      rcases List.mem_cons.mp ht with h0 | h0
      · exact foldl_mergeStep_covers _ _ x
          (Or.inl ⟨s0.toFinset, by simp, by simp [h0 ▸ hx]⟩)
      · refine foldl_mergeStep_covers _ _ x
          (Or.inr ⟨t.toFinset, List.mem_map_of_mem _ h0, by simp [hx]⟩)
    exact repname2idAux_isSome x _ 0 hcover
  refine ⟨hkey, ?_⟩
  rw [aggregate]
  refine assignIds_isSome _ _ ?_
  intro p hp
  have hmem := List.of_mem_zip hp
  have ht : p.2 ≠ [] := hall p.2 hmem.2
  obtain ⟨r, t', hrt⟩ := List.exists_cons_of_ne_nil ht
  refine ⟨r, by rw [hrt]; rfl, ?_⟩
  exact hkey p.2 hmem.2 r (by rw [hrt]; exact List.mem_cons_self r t')

/-- Witness for C5: a one-word input with one candidate aggregates
successfully. -/
theorem aggregate_lookup_total_w : (aggregate ["w"] [["a"]]).isSome :=
  (aggregate_lookup_total ["w"] [["a"]] (by simp) (by simp)).2

/-- Counterexample to C9 as stated: with candidate sets
`[{a}, {b}, {a, b}]` the third set merges into the first cluster, making
the final clusters `[{a, b}, {b}]`, which are *not* pairwise disjoint. -/
theorem buildClusters_not_pairwise_disjoint :
    ¬ (buildClusters {"a"} [{"b"}, {"a", "b"}]).Pairwise
        (fun A B => Disjoint A B) := by decide

theorem mergeStep_mem_shape (clusters : List (Finset String))
    (S : Finset String) :
    ∀ X ∈ mergeStep clusters S, X = S ∨ ∃ C ∈ clusters, X = C ∨ X = S ∪ C := by
  induction clusters with
  | nil => simp [mergeStep]
  | cons C rest ih =>
    intro X hX
    by_cases hc : 0 < (S ∩ C).card
    · simp only [mergeStep, if_pos hc] at hX
      rcases List.mem_cons.mp hX with h0 | h0
      · exact Or.inr ⟨C, List.mem_cons_self C rest, Or.inr h0⟩
      · exact Or.inr ⟨X, List.mem_cons_of_mem C h0, Or.inl rfl⟩
    · simp only [mergeStep, if_neg hc] at hX
      rcases List.mem_cons.mp hX with h0 | h0
      · exact Or.inr ⟨C, List.mem_cons_self C rest, Or.inl h0⟩
      · rcases ih X h0 with h1 | ⟨D, hD, h1⟩
        · exact Or.inl h1
        · exact Or.inr ⟨D, List.mem_cons_of_mem C hD, h1⟩

theorem disjoint_of_inter_card_zero {S C : Finset String}
    (h : ¬ 0 < (S ∩ C).card) : Disjoint S C := by
  rw [Finset.disjoint_iff_inter_eq_empty]
  have : (S ∩ C).card = 0 := Nat.eq_zero_of_not_pos h
  exact Finset.card_eq_zero.mp this

theorem mergeStep_pairwise_disjoint (clusters : List (Finset String))
    (S : Finset String)
    (hpd : clusters.Pairwise (fun A B => Disjoint A B))
    (h1 : clusters.countP (fun C => 0 < (S ∩ C).card) ≤ 1) :
    (mergeStep clusters S).Pairwise (fun A B => Disjoint A B) := by
  induction clusters with
  | nil => simp [mergeStep]
  | cons C rest ih =>
    have hC := List.pairwise_cons.mp hpd
    by_cases hc : 0 < (S ∩ C).card
    · simp only [mergeStep, if_pos hc]
      refine List.pairwise_cons.mpr ⟨?_, hC.2⟩
      intro D hD
      have hrest0 : rest.countP (fun C => 0 < (S ∩ C).card) = 0 := by
        have hd : decide (0 < (S ∩ C).card) = true := decide_eq_true hc
        have h1' := h1
        rw [List.countP_cons, hd] at h1'
        simp only [if_pos] at h1'
        omega
      have hSD : ¬ 0 < (S ∩ D).card := by
        have := List.countP_eq_zero.mp hrest0 D hD
        simpa using this
      exact Finset.disjoint_union_left.mpr
        ⟨disjoint_of_inter_card_zero hSD, hC.1 D hD⟩
    · simp only [mergeStep, if_neg hc]
      have hrest1 : rest.countP (fun C => 0 < (S ∩ C).card) ≤ 1 := by
        have h1' := h1
        rw [List.countP_cons] at h1'
        omega
      refine List.pairwise_cons.mpr ⟨?_, ih hC.2 hrest1⟩
      intro X hX
      rcases mergeStep_mem_shape rest S X hX with h0 | ⟨D, hD, h0⟩
      · exact h0 ▸ (disjoint_of_inter_card_zero hc).symm
      · rcases h0 with h0 | h0
        · exact h0 ▸ hC.1 D hD
        · exact h0 ▸ Finset.disjoint_union_right.mpr
            ⟨(disjoint_of_inter_card_zero hc).symm, hC.1 D hD⟩

theorem foldl_mergeStep_pairwise_disjoint (l : List (Finset String)) :
    ∀ cs : List (Finset String),
      cs.Pairwise (fun A B => Disjoint A B) →
      atMostOneOverlap cs l = true →
      (l.foldl mergeStep cs).Pairwise (fun A B => Disjoint A B) := by
  induction l with
  | nil => intro cs h _; simpa using h
  | cons S l' ih =>
    intro cs hpd hok
    rw [atMostOneOverlap, Bool.and_eq_true, decide_eq_true_eq] at hok
    rw [List.foldl_cons]
    exact ih _ (mergeStep_pairwise_disjoint cs S hpd hok.1) hok.2

/-- Claim C9, amended: the final clusters of the fold are pairwise disjoint
*provided* every word's candidate set intersects at most one of the current
clusters at the moment it is processed (without that proviso the invariant
fails, see the counterexample). -/
theorem buildClusters_pairwise_disjoint_of_atMostOne (S0 : Finset String)
    (rest : List (Finset String))
    (h : atMostOneOverlap [S0] rest = true) :
    (buildClusters S0 rest).Pairwise (fun A B => Disjoint A B) :=
  foldl_mergeStep_pairwise_disjoint rest [S0] (by simp) h

/-- Witness for the amended C9 on a multi-step run without multi-overlap. -/
theorem buildClusters_pairwise_disjoint_of_atMostOne_w :
    (buildClusters {"a"} [{"b"}, {"a", "c"}]).Pairwise
      (fun A B => Disjoint A B) :=
  buildClusters_pairwise_disjoint_of_atMostOne {"a"} [{"b"}, {"a", "c"}]
    (by decide)

/-- Claim C10: `expand_ambiguity` on an empty sequence of morpheme candidate
tuples returns the one-element tuple containing the empty string. -/
theorem expand_ambiguity_nil : expand_ambiguity [] = [""] := rfl

/-! ### Claim theorems: the numeral converter -/

/-- Counterexample to C3 as stated: the converter ends with the
`zenhan.h2z` width re-normalization, so on `十` it returns the full-width
string `１０`, not the half-width `10`. -/
theorem kansuji2arabic_not_halfwidth : kansuji2arabic "十" ≠ "10" := by decide

/-- Claim C3, amended: the converter satisfies the listed test values up to
the final width re-normalization: it returns the full-width digit strings
`１０`, `１１０`, `２０１９`, `１００００`, `３６５`. -/
theorem kansuji2arabic_test_values :
    kansuji2arabic "十" = "１０" ∧ kansuji2arabic "百十" = "１１０"
    ∧ kansuji2arabic "二千十九" = "２０１９"
    ∧ kansuji2arabic "一万" = "１００００"
    ∧ kansuji2arabic "三百六十五" = "３６５" :=
  ⟨by decide, by decide, by decide, by decide, by decide⟩

theorem TRANSUNIT_one_lt {c : Char} {v : Nat} (h : TRANSUNIT c = some v) :
    1 < v := by
  unfold TRANSUNIT at h
  split_ifs at h <;> injection h with h <;> omega

theorem TRANSMANS_one_lt {c : Char} {v : Nat} (h : TRANSMANS c = some v) :
    1 < v := by
  unfold TRANSMANS at h
  split_ifs at h <;> injection h with h <;> omega

/-- Claim C7: in the right-to-left scan of `_transvalue`, a bare unit with
no preceding digit denotes multiplier 1 — prepending a bare unit token to a
run adds exactly one multiple of that unit's value, because the pending
multiplier is flushed exactly once after the scan; in particular a run
consisting of a single unit character evaluates to that unit's value
(`十` to 10, `万` to 10000). -/
theorem transvalue_bare_unit :
    (∀ c v, TRANSUNIT c = some v →
      ∀ ts : List KTok, evalKunitToks (KTok.unit c :: ts) = evalKunitToks ts + v)
    ∧ (∀ c v, TRANSMANS c = some v →
      ∀ ts : List MTok, evalManToks (MTok.unit c :: ts) = evalManToks ts + v)
    ∧ transvalueKunit "十".data = 10 ∧ transvalueMan "万".data = 10000 := by
  refine ⟨?_, ?_, by decide, by decide⟩
  · intro c v h ts
    have hv : 1 < v := TRANSUNIT_one_lt h
    simp only [evalKunitToks, List.reverse_cons, List.foldl_append,
      List.foldl_cons, List.foldl_nil]
    simp only [kunitStep, h, Option.getD_some, unitFlush, if_pos hv]
  · intro c v h ts
    have hv : 1 < v := TRANSMANS_one_lt h
    simp only [evalManToks, List.reverse_cons, List.foldl_append,
      List.foldl_cons, List.foldl_nil]
    simp only [manshinStep, h, Option.getD_some, unitFlush, if_pos hv]

/-- Witness for C7: prepending the bare `十` token to the empty run yields
exactly 10. -/
theorem transvalue_bare_unit_w :
    evalKunitToks [KTok.unit '十'] = evalKunitToks [] + 10 :=
  transvalue_bare_unit.1 '十' 10 (by decide) []

theorem join_singletons (l : List Char) :
    String.join (l.map (fun c => String.mk [c])) = String.mk l := by
  induction l with
  | nil => rfl
  | cons c l' ih => rw [List.map_cons, string_join_cons, ih]; rfl

/-- Claim C8: a morpheme classified as a numeral gets one candidate slot
per character of the converted digit string — the tuple of the
single-character strings of `kansuji2arabic` applied to its surface, each
of length one, whose concatenation recovers the converted number (so the
whole number is never a single candidate once it has several digits). -/
theorem numeral_candidates_per_character (m : Morpheme)
    (h : m.bunrui = "数詞") :
    morphemeCandidates m =
      (kansuji2arabic m.midasi).data.map (fun c => String.mk [c])
    ∧ (morphemeCandidates m).length = (kansuji2arabic m.midasi).length
    ∧ (∀ s ∈ morphemeCandidates m, s.length = 1)
    ∧ String.join (morphemeCandidates m) = kansuji2arabic m.midasi := by
  have h1 : morphemeCandidates m =
      (kansuji2arabic m.midasi).data.map (fun c => String.mk [c]) := by
    simp [morphemeCandidates, h]
  refine ⟨h1, ?_, ?_, ?_⟩
  · rw [h1, List.length_map]
    rfl
  · intro s hs
    rw [h1] at hs
    obtain ⟨c, _, rfl⟩ := List.mem_map.mp hs
    rfl
  · rw [h1, join_singletons]

/-- Witness for C8 on the numeral morpheme `十`: its candidates are the
single characters of the converted number. -/
theorem numeral_candidates_per_character_w :
    morphemeCandidates ⟨"数詞", "十", ""⟩ =
      (kansuji2arabic "十").data.map (fun c => String.mk [c]) :=
  (numeral_candidates_per_character ⟨"数詞", "十", ""⟩ rfl).1

/-! ### Replacement-loop analysis (towards C6)

The replacement loop of `kansuji2arabic` iterates over the distinct maximal
numeral runs of the translated host string in an order that is only
specified up to the `key=len, reverse=True` sort: runs of equal length come
in an arbitrary set-iteration order.  The lemmas below show that every
length-descending order produces the same host string, by proving that each
`str.replace` call rewrites exactly the regions of the run decomposition
whose run equals the processed one. -/

theorem replaceAllAux_congr (pat rep : List Char) :
    ∀ (f1 : Nat) (s : List Char) (f2 : Nat), s.length ≤ f1 → s.length ≤ f2 →
      replaceAllAux pat rep f1 s = replaceAllAux pat rep f2 s := by
  intro f1
  induction f1 with
  | zero =>
    intro s f2 h1 _
    have hs : s = [] := List.length_eq_zero.mp (Nat.le_zero.mp h1)
    subst hs
    cases f2 <;> rfl
  | succ f ih =>
    intro s f2 h1 h2
    cases s with
    | nil => cases f2 <;> rfl
    | cons c rest =>
      cases f2 with
      | zero => simp at h2
      | succ f2' =>
        simp only [replaceAllAux]
        by_cases hp : pat ≠ [] ∧ pat.isPrefixOf (c :: rest)
        · rw [if_pos hp, if_pos hp]
          have hpat1 : 1 ≤ pat.length := by
            cases hpat : pat with
            | nil => exact absurd hpat hp.1
            | cons p ps => simp
          have hlen1 : ((c :: rest).drop pat.length).length ≤ f := by
            simp only [List.length_drop, List.length_cons]
            simp only [List.length_cons] at h1
            omega
          have hlen2 : ((c :: rest).drop pat.length).length ≤ f2' := by
            simp only [List.length_drop, List.length_cons]
            simp only [List.length_cons] at h2
            omega
          exact congrArg (rep ++ ·) (ih _ f2' hlen1 hlen2)
        · rw [if_neg hp, if_neg hp]
          have hr1 : rest.length ≤ f := by simp at h1; omega
          have hr2 : rest.length ≤ f2' := by simp at h2; omega
          exact congrArg (c :: ·) (ih rest f2' hr1 hr2)

theorem replaceAll_cons (pat rep : List Char) (c : Char) (rest : List Char) :
    replaceAll pat rep (c :: rest) =
      if pat ≠ [] ∧ pat.isPrefixOf (c :: rest) then
        rep ++ replaceAll pat rep ((c :: rest).drop pat.length)
      else c :: replaceAll pat rep rest := by
  show replaceAllAux pat rep (c :: rest).length (c :: rest) = _
  simp only [List.length_cons, replaceAllAux]
  by_cases hp : pat ≠ [] ∧ pat.isPrefixOf (c :: rest)
  · rw [if_pos hp, if_pos hp]
    refine congrArg (rep ++ ·) (replaceAllAux_congr pat rep rest.length _ _ ?_ ?_)
    · have hpat1 : 1 ≤ pat.length := by
        cases hpat : pat with
        | nil => exact absurd hpat hp.1
        | cons p ps => simp
      simp only [List.length_drop, List.length_cons]
      omega
    · exact Nat.le_refl _
  · rw [if_neg hp, if_neg hp]
    rfl

theorem replaceAll_empty_pat (rep : List Char) : ∀ s, replaceAll [] rep s = s := by
  have haux : ∀ f s, replaceAllAux [] rep f s = s := by
    intro f
    induction f with
    | zero => intro s; rfl
    | succ f ih =>
      intro s
      cases s with
      | nil => rfl
      | cons c rest => simp [replaceAllAux, ih]
  intro s
  exact haux s.length s

/-- No occurrence of a nonempty all-numeral pattern can start inside a
prefix whose characters are all non-numeral. -/
theorem noOccStart_sep (A : List Char) (hAne : A ≠ [])
    (hAnum : ∀ ch ∈ A, isNumeralCh ch = true) :
    ∀ (s b l r : List Char), (∀ ch ∈ s, isNumeralCh ch = false) →
      s ++ b = l ++ A ++ r → s.length ≤ l.length := by
  intro s
  induction s with
  | nil => intro b l r _ _; simp
  | cons x s' ih =>
    intro b l r hs heq
    cases l with
    | nil =>
      obtain ⟨a0, A', rfl⟩ := List.exists_cons_of_ne_nil hAne
      simp only [List.cons_append, List.nil_append] at heq
      injection heq with h1 h2
      have hx := hs x (List.mem_cons_self x s')
      rw [h1] at hx
      rw [hAnum a0 (List.mem_cons_self a0 A')] at hx
      cases hx
    | cons y l' =>
      simp only [List.cons_append] at heq
      injection heq with h1 h2
      have := ih b l' r (fun ch hch => hs ch (List.mem_cons_of_mem x hch)) h2
      simpa using this

/-- No occurrence of a nonempty all-numeral pattern `A` can start strictly
inside a region `c0` of which `A` is not an infix, when the text after the
region is empty or starts with a non-numeral character. -/
theorem noOccStart_region (A : List Char) (hAne : A ≠ [])
    (hAnum : ∀ ch ∈ A, isNumeralCh ch = true) :
    ∀ (c0 b l r : List Char), ¬ A <:+: c0 →
      (∀ x xs, b = x :: xs → isNumeralCh x = false) →
      c0 ++ b = l ++ A ++ r → c0.length ≤ l.length := by
  intro c0
  induction c0 with
  | nil => intro b l r _ _ _; simp
  | cons x c0' ih =>
    intro b l r hni hb heq
    cases l with
    | nil =>
      exfalso
      simp only [List.nil_append] at heq
      rcases List.append_eq_append_iff.mp heq with ⟨a', ha1, ha2⟩ | ⟨c', hc1, hc2⟩
      · cases a' with
        | nil =>
          rw [List.append_nil] at ha1
          exact hni (ha1 ▸ List.infix_refl A)
        | cons h t =>
          have hhA : h ∈ A := by
            rw [ha1]
            exact List.mem_append_right _ (List.mem_cons_self h t)
          have := hb h (t ++ r) ha2
          rw [hAnum h hhA] at this
          cases this
      · obtain ⟨a0, A', rfl⟩ := List.exists_cons_of_ne_nil hAne
        exact hni ⟨[], c', by simpa using hc1.symm⟩
    | cons y l' =>
      simp only [List.cons_append] at heq
      injection heq with h1 h2
      have hni' : ¬ A <:+: c0' := fun hcontra => hni (List.infix_cons hcontra)
      have := ih b l' r hni' hb h2
      simpa using this

/-- Combination of the two previous lemmas: no occurrence of `A` starts
within the separator-plus-region prefix `s0 ++ c0`. -/
theorem noOccStart_sep_region (A : List Char) (hAne : A ≠ [])
    (hAnum : ∀ ch ∈ A, isNumeralCh ch = true)
    (s0 c0 b : List Char)
    (hs0 : ∀ ch ∈ s0, isNumeralCh ch = false)
    (hni : ¬ A <:+: c0)
    (hb : ∀ x xs, b = x :: xs → isNumeralCh x = false) :
    ∀ l r, (s0 ++ c0) ++ b = l ++ A ++ r → (s0 ++ c0).length ≤ l.length := by
  intro l r heq
  rw [List.append_assoc, List.append_assoc] at heq
  rcases List.append_eq_append_iff.mp heq with ⟨a', h1, h2⟩ | ⟨c', h1, h2⟩
  · rw [← List.append_assoc] at h2
    have := noOccStart_region A hAne hAnum c0 b a' r hni hb h2
    simp [h1]
    omega
  · cases c' with
    | nil =>
      rw [List.append_nil] at h1
      have := noOccStart_region A hAne hAnum c0 b [] r hni hb
        (by simpa using h2.symm)
      have hc0 : c0 = [] := List.length_eq_zero.mp (by simpa using this)
      simp [hc0, h1]
    | cons h t =>
      exfalso
      obtain ⟨a0, A', rfl⟩ := List.exists_cons_of_ne_nil hAne
      simp only [List.cons_append] at h2
      injection h2 with h3 h4
      have hmem : h ∈ s0 := by
        rw [h1]
        exact List.mem_append_right _ (List.mem_cons_self h t)
      have := hs0 h hmem
      rw [← h3, hAnum a0 (List.mem_cons_self a0 A')] at this
      cases this

/-- `str.replace` skips a prefix in which no occurrence of the pattern
starts. -/
theorem replaceAll_append_of_noOccStart (A rep : List Char) :
    ∀ (a b : List Char),
      (∀ l r, a ++ b = l ++ A ++ r → a.length ≤ l.length) →
      replaceAll A rep (a ++ b) = a ++ replaceAll A rep b := by
  intro a
  induction a with
  | nil => intro b _; simp
  | cons c a' ih =>
    intro b h
    rw [List.cons_append, replaceAll_cons]
    have hnp : ¬ (A ≠ [] ∧ A.isPrefixOf (c :: (a' ++ b))) := by
      rintro ⟨hne, hpre⟩
      obtain ⟨t, ht⟩ := List.isPrefixOf_iff_prefix.mp hpre
      have := h [] t (by simpa using ht.symm)
      simp at this
    rw [if_neg hnp]
    refine congrArg (c :: ·) (ih b ?_)
    intro l r heq
    have := h (c :: l) r (by simp [heq])
    simpa using this

/-- `str.replace` rewrites an occurrence of the pattern sitting at the
front of the host. -/
theorem replaceAll_prefix_match (A rep b : List Char) (hA : A ≠ []) :
    replaceAll A rep (A ++ b) = rep ++ replaceAll A rep b := by
  obtain ⟨a0, A', hA'⟩ := List.exists_cons_of_ne_nil hA
  subst hA'
  rw [List.cons_append, replaceAll_cons]
  have hpre : (a0 :: A').isPrefixOf (a0 :: (A' ++ b)) := by
    rw [List.isPrefixOf_iff_prefix]
    exact ⟨b, by simp⟩
  rw [if_pos ⟨by simp, hpre⟩]
  have hdrop : (a0 :: (A' ++ b)).drop (a0 :: A').length = b := by
    rw [← List.cons_append]
    exact List.drop_left _ _
  rw [hdrop]

theorem flat_cons (p : List Char × List Char)
    (D : List (List Char × List Char)) (send : List Char) :
    flat (p :: D) send = p.1 ++ p.2 ++ flat D send := rfl

/-- The key step: replacing one nonempty all-numeral, not-purely-decimal
pattern `A` in a well-formed decomposition rewrites exactly the regions
whose content equals `A` — provided `A` is not a proper infix of any other
region content. -/
theorem replaceAll_flat (A rep : List Char) (hAne : A ≠ [])
    (hAnum : ∀ ch ∈ A, isNumeralCh ch = true) :
    ∀ (D : List (List Char × List Char)) (send : List Char),
      (∀ p ∈ D, ∀ ch ∈ p.1, isNumeralCh ch = false) →
      (∀ ch ∈ send, isNumeralCh ch = false) →
      (∀ p ∈ D.tail, p.1 ≠ []) →
      (∀ p ∈ D, p.2 ≠ A → ¬ A <:+: p.2) →
      replaceAll A rep (flat D send) =
        flat (D.map (fun p => (p.1, if p.2 = A then rep else p.2))) send := by
  intro D
  induction D with
  | nil =>
    intro send _ hsend _ _
    show replaceAll A rep send = send
    have h := replaceAll_append_of_noOccStart A rep send []
      (fun l r heq => noOccStart_sep A hAne hAnum send [] l r hsend heq)
    rw [List.append_nil] at h
    rw [h]
    simp [show replaceAll A rep ([] : List Char) = [] from rfl]
  | cons p D' ih =>
    obtain ⟨s0, c0⟩ := p
    intro send hsep hsend hmid hreg
    have hs0 : ∀ ch ∈ s0, isNumeralCh ch = false :=
      fun ch hch => hsep (s0, c0) (List.mem_cons_self _ _) ch hch
    have hsep' : ∀ q ∈ D', ∀ ch ∈ q.1, isNumeralCh ch = false :=
      fun q hq => hsep q (List.mem_cons_of_mem _ hq)
    have hmidD' : ∀ q ∈ D', q.1 ≠ [] := by
      intro q hq
      exact hmid q (by simpa using hq)
    have hmid' : ∀ q ∈ D'.tail, q.1 ≠ [] :=
      fun q hq => hmidD' q (List.mem_of_mem_tail hq)
    have hreg' : ∀ q ∈ D', q.2 ≠ A → ¬ A <:+: q.2 :=
      fun q hq => hreg q (List.mem_cons_of_mem _ hq)
    have hhead : ∀ x xs, flat D' send = x :: xs → isNumeralCh x = false := by
      cases D' with
      | nil =>
        intro x xs hx
        exact hsend x (by rw [show flat [] send = send from rfl] at hx; rw [hx]; exact List.mem_cons_self x xs)
      | cons q D'' =>
        obtain ⟨s1, c1⟩ := q
        have hs1ne : s1 ≠ [] := hmidD' (s1, c1) (List.mem_cons_self _ _)
        intro x xs hx
        obtain ⟨z, s1', hz⟩ := List.exists_cons_of_ne_nil hs1ne
        rw [flat_cons, hz] at hx
        simp only [List.cons_append] at hx
        injection hx with h1 h2
        have hzmem : z ∈ s1 := by rw [hz]; exact List.mem_cons_self z s1'
        rw [← h1]
        exact hsep' (s1, c1) (List.mem_cons_self _ _) z hzmem
    show replaceAll A rep (s0 ++ c0 ++ flat D' send) = _
    by_cases hc : c0 = A
    · subst hc
      rw [List.append_assoc]
      rw [replaceAll_append_of_noOccStart c0 rep s0 (c0 ++ flat D' send)
        (fun l r heq => noOccStart_sep c0 hAne hAnum s0 _ l r hs0 heq)]
      rw [replaceAll_prefix_match c0 rep _ hAne]
      rw [ih send hsep' hsend hmid' hreg']
      simp [flat_cons, List.append_assoc]
    · have hni : ¬ A <:+: c0 := hreg (s0, c0) (List.mem_cons_self _ _) hc
      rw [replaceAll_append_of_noOccStart A rep (s0 ++ c0) (flat D' send)
        (noOccStart_sep_region A hAne hAnum s0 c0 _ hs0 hni hhead)]
      rw [ih send hsep' hsend hmid' hreg']
      simp [flat_cons, List.map_cons, if_neg hc, List.append_assoc]

theorem isDigitCh_digitCh (n : Nat) (h : n < 10) : isDigitCh (digitCh n) = true := by
  interval_cases n <;> decide

theorem natDigitsAux_all_digit :
    ∀ (f n : Nat), ∀ ch ∈ natDigitsAux f n, isDigitCh ch = true := by
  intro f
  induction f with
  | zero => intro n ch hch; simp [natDigitsAux] at hch
  | succ f ih =>
    intro n ch hch
    rw [natDigitsAux] at hch
    by_cases hn : n < 10
    · rw [if_pos hn] at hch
      simp only [List.mem_singleton] at hch
      rw [hch]
      exact isDigitCh_digitCh n hn
    · rw [if_neg hn] at hch
      rcases List.mem_append.mp hch with h1 | h1
      · exact ih _ ch h1
      · simp only [List.mem_singleton] at h1
        rw [h1]
        exact isDigitCh_digitCh (n % 10) (Nat.mod_lt _ (by omega))

theorem natDigits_all_digit (n : Nat) : ∀ ch ∈ natDigits n, isDigitCh ch = true :=
  natDigitsAux_all_digit (n + 1) n

theorem isNumeralCh_of_digit {ch : Char} (h : isDigitCh ch = true) :
    isNumeralCh ch = true := by
  simp [isNumeralCh, h]

/-! ### Well-formedness of the run decomposition -/

theorem decompose_flat (s : List Char) :
    flat (decompose s).1 (decompose s).2 = s := by
  induction s with
  | nil => rfl
  | cons c s' ih =>
    rcases hDe : decompose s' with ⟨D, e⟩
    rw [hDe] at ih
    show flat (decompStep c (decompose s')).1 (decompStep c (decompose s')).2 = c :: s'
    rw [hDe]
    cases hnum : isNumeralCh c with
    | true =>
      cases D with
      | nil =>
        simp only [decompStep, hnum, if_true]
        show flat [([], [c])] e = c :: s'
        simp only [show flat [] e = e from rfl] at ih
        show c :: e = c :: s'
        rw [ih]
      | cons q d =>
        obtain ⟨s1, r1⟩ := q
        cases hs1 : s1 with
        | nil =>
          simp only [decompStep, hnum, if_true, hs1]
          rw [hs1] at ih
          simp only [flat_cons, List.nil_append] at ih ⊢
          simp only [List.isEmpty_nil, if_true]
          simp only [flat_cons, List.nil_append, List.cons_append]
          rw [ih]
        | cons z zs =>
          simp only [decompStep, hnum, if_true, hs1]
          rw [hs1] at ih
          simp only [flat_cons, List.append_assoc, List.cons_append,
            List.nil_append, List.singleton_append] at ih ⊢
          simp [flat_cons, List.append_assoc, ih]
    | false =>
      cases D with
      | nil =>
        simp only [decompStep, hnum]
        simp only [show flat [] e = e from rfl] at ih
        show flat [] (c :: e) = c :: s'
        show c :: e = c :: s'
        rw [ih]
      | cons q d =>
        obtain ⟨s1, r1⟩ := q
        simp only [decompStep, hnum]
        simp only [flat_cons, List.append_assoc, List.cons_append] at ih ⊢
        simp [flat_cons, List.append_assoc, ih]

theorem decompose_pairs (s : List Char) :
    ∀ p ∈ (decompose s).1,
      (∀ ch ∈ p.1, isNumeralCh ch = false) ∧ p.2 ≠ [] ∧
        ∀ ch ∈ p.2, isNumeralCh ch = true := by
  induction s with
  | nil => simp [decompose]
  | cons c s' ih =>
    rcases hDe : decompose s' with ⟨D, e⟩
    rw [hDe] at ih
    have hgoal : (decompose (c :: s')).1 = (decompStep c (D, e)).1 := by
      show (decompStep c (decompose s')).1 = _
      rw [hDe]
    rw [hgoal]
    cases hnum : isNumeralCh c with
    | true =>
      cases D with
      | nil =>
        simp only [decompStep, hnum, if_true]
        intro p hp
        simp only [List.mem_singleton] at hp
        subst hp
        refine ⟨by simp, by simp, ?_⟩
        intro ch hch
        simp only [List.mem_singleton] at hch
        rw [hch]
        exact hnum
      | cons q d =>
        obtain ⟨s1, r1⟩ := q
        cases hs1 : s1 with
        | nil =>
          rw [hs1] at ih
          simp only [decompStep, hnum, if_true, hs1, List.isEmpty_nil]
          intro p hp
          rcases List.mem_cons.mp hp with h0 | h0
          · subst h0
            have hold := ih ([], r1) (List.mem_cons_self _ _)
            refine ⟨by simp, by simp, ?_⟩
            intro ch hch
            rcases List.mem_cons.mp hch with h1 | h1
            · rw [h1]; exact hnum
            · exact hold.2.2 ch h1
          · exact ih p (List.mem_cons_of_mem _ h0)
        | cons z zs =>
          rw [hs1] at ih
          simp only [decompStep, hnum, if_true, hs1, List.isEmpty_cons]
          intro p hp
          rcases List.mem_cons.mp hp with h0 | h0
          · subst h0
            refine ⟨by simp, by simp, ?_⟩
            intro ch hch
            simp only [List.mem_singleton] at hch
            rw [hch]
            exact hnum
          · exact ih p h0
    | false =>
      cases D with
      | nil =>
        simp only [decompStep, hnum]
        intro p hp
        simp at hp
      | cons q d =>
        obtain ⟨s1, r1⟩ := q
        simp only [decompStep, hnum]
        intro p hp
        rcases List.mem_cons.mp hp with h0 | h0
        · subst h0
          have hold := ih (s1, r1) (List.mem_cons_self _ _)
          refine ⟨?_, hold.2.1, hold.2.2⟩
          intro ch hch
          rcases List.mem_cons.mp hch with h1 | h1
          · rw [h1]; exact hnum
          · exact hold.1 ch h1
        · exact ih p (List.mem_cons_of_mem _ h0)

theorem decompose_send (s : List Char) :
    ∀ ch ∈ (decompose s).2, isNumeralCh ch = false := by
  induction s with
  | nil => simp [decompose]
  | cons c s' ih =>
    rcases hDe : decompose s' with ⟨D, e⟩
    rw [hDe] at ih
    have hgoal : (decompose (c :: s')).2 = (decompStep c (D, e)).2 := by
      show (decompStep c (decompose s')).2 = _
      rw [hDe]
    rw [hgoal]
    cases hnum : isNumeralCh c with
    | true =>
      cases D with
      | nil => simpa [decompStep, hnum] using ih
      | cons q d =>
        obtain ⟨s1, r1⟩ := q
        cases hs1 : s1 with
        | nil => simpa [decompStep, hnum, hs1] using ih
        | cons z zs => simpa [decompStep, hnum, hs1] using ih
    | false =>
      cases D with
      | nil =>
        simp only [decompStep, hnum]
        intro ch hch
        rcases List.mem_cons.mp hch with h0 | h0
        · rw [h0]; exact hnum
        · exact ih ch h0
      | cons q d =>
        obtain ⟨s1, r1⟩ := q
        simpa [decompStep, hnum] using ih

theorem decompose_tail_sep (s : List Char) :
    ∀ p ∈ (decompose s).1.tail, p.1 ≠ [] := by
  induction s with
  | nil => simp [decompose]
  | cons c s' ih =>
    rcases hDe : decompose s' with ⟨D, e⟩
    rw [hDe] at ih
    have hgoal : (decompose (c :: s')).1 = (decompStep c (D, e)).1 := by
      show (decompStep c (decompose s')).1 = _
      rw [hDe]
    rw [hgoal]
    cases hnum : isNumeralCh c with
    | true =>
      cases D with
      | nil => simp [decompStep, hnum]
      | cons q d =>
        obtain ⟨s1, r1⟩ := q
        cases hs1 : s1 with
        | nil =>
          rw [hs1] at ih
          simpa [decompStep, hnum, hs1] using ih
        | cons z zs =>
          rw [hs1] at ih
          simp only [decompStep, hnum, if_true, hs1, List.isEmpty_cons]
          intro p hp
          rcases List.mem_cons.mp hp with h0 | h0
          · rw [h0]; simp
          · exact ih p h0
    | false =>
      cases D with
      | nil => simp [decompStep, hnum]
      | cons q d =>
        obtain ⟨s1, r1⟩ := q
        simpa [decompStep, hnum] using ih

/-! ### The replacement fold computes a parallel substitution -/

theorem isDecimalStr_spec {r : List Char} (h : isDecimalStr r = true) :
    r ≠ [] ∧ ∀ ch ∈ r, isDigitCh ch = true := by
  rw [isDecimalStr, Bool.and_eq_true] at h
  constructor
  · intro hr
    rw [hr] at h
    simp at h
  · exact fun ch hch => List.all_eq_true.mp h.2 ch hch

theorem not_infix_of_digits {A c : List Char} (hAne : A ≠ [])
    (hAnd : isDecimalStr A = false)
    (hc : ∀ ch ∈ c, isDigitCh ch = true) : ¬ A <:+: c := by
  intro hinf
  have hsub : ∀ ch ∈ A, isDigitCh ch = true :=
    fun ch hch => hc ch (hinf.sublist.subset hch)
  have hne' : A.isEmpty = false := by
    cases A with
    | nil => exact absurd rfl hAne
    | cons a as => rfl
  have : isDecimalStr A = true := by
    rw [isDecimalStr, Bool.and_eq_true, hne']
    exact ⟨rfl, List.all_eq_true.mpr hsub⟩
  rw [this] at hAnd
  cases hAnd

theorem substRun_all_digit (r : List Char) :
    ∀ ch ∈ substRun r, isDigitCh ch = true := by
  rw [substRun]
  by_cases h : isDecimalStr r = true
  · rw [if_pos h]
    exact (isDecimalStr_spec h).2
  · rw [if_neg h]
    exact natDigits_all_digit _

/-- The replacement fold, run on the reassembled decomposition with the
runs in `Q` already substituted, over any remaining length-descending list
`l` of distinct runs, produces the state in which the runs of `Q ++ l` are
substituted. -/
theorem foldl_applyRun_to_subst
    (D : List (List Char × List Char)) (send : List Char)
    (hsep : ∀ p ∈ D, ∀ ch ∈ p.1, isNumeralCh ch = false)
    (hsend : ∀ ch ∈ send, isNumeralCh ch = false)
    (hmid : ∀ p ∈ D.tail, p.1 ≠ [])
    (hrun : ∀ p ∈ D, p.2 ≠ [] ∧ ∀ ch ∈ p.2, isNumeralCh ch = true) :
    ∀ (l Q : List (List Char)),
      (Q ++ l).Nodup →
      (∀ p ∈ D, p.2 ∈ Q ++ l) →
      (∀ a ∈ Q ++ l, ∃ p ∈ D, p.2 = a) →
      List.Pairwise lenGE (Q ++ l) →
      l.foldl applyRun (flat (D.map (fun p => (p.1, substIf Q p.2))) send) =
        flat (D.map (fun p => (p.1, substIf (Q ++ l) p.2))) send := by
  intro l
  induction l with
  | nil =>
    intro Q _ _ _ _
    simp
  | cons A l' ih =>
    intro Q hnd hmem hruns hsort
    rw [List.foldl_cons]
    have hAQ : A ∉ Q :=
      fun hq => (List.nodup_append.mp hnd).2.2 hq (List.mem_cons_self A l')
    obtain ⟨pA, hpA, hpA2⟩ :=
      hruns A (List.mem_append_right Q (List.mem_cons_self A l'))
    have hAne : A ≠ [] := hpA2 ▸ (hrun pA hpA).1
    have hAnum : ∀ ch ∈ A, isNumeralCh ch = true := hpA2 ▸ (hrun pA hpA).2
    have hlist : (Q ++ [A]) ++ l' = Q ++ A :: l' := by simp
    have hih := ih (Q ++ [A]) (by rw [hlist]; exact hnd)
      (by rw [hlist]; exact hmem) (by rw [hlist]; exact hruns)
      (by rw [hlist]; exact hsort)
    rw [hlist] at hih
    by_cases hdec : isDecimalStr A = true
    · rw [show applyRun (flat (D.map (fun p => (p.1, substIf Q p.2))) send) A =
          flat (D.map (fun p => (p.1, substIf Q p.2))) send from by
        rw [applyRun, if_pos hdec]]
      have hcongr : D.map (fun p => (p.1, substIf Q p.2)) =
          D.map (fun p => (p.1, substIf (Q ++ [A]) p.2)) := by
        refine List.map_congr_left ?_
        intro p hp
        by_cases hpa : p.2 = A
        · rw [hpa]
          simp only [substIf, substRun]
          rw [if_neg hAQ, if_pos (show A ∈ Q ++ [A] by simp), if_pos hdec]
        · have hiff : p.2 ∈ Q ++ [A] ↔ p.2 ∈ Q := by simp [hpa]
          simp only [substIf]
          rw [if_congr hiff rfl rfl]
      rw [hcongr]
      exact hih
    · have hdec' : isDecimalStr A = false := by
        cases h' : isDecimalStr A with
        | false => rfl
        | true => exact absurd h' hdec
      rw [show applyRun (flat (D.map (fun p => (p.1, substIf Q p.2))) send) A =
          replaceAll A (natDigits (transvalueMan A))
            (flat (D.map (fun p => (p.1, substIf Q p.2))) send) from by
        rw [applyRun, if_neg hdec]]
      have hsep' : ∀ q ∈ D.map (fun p => (p.1, substIf Q p.2)),
          ∀ ch ∈ q.1, isNumeralCh ch = false := by
        intro q hq
        obtain ⟨p, hp, rfl⟩ := List.mem_map.mp hq
        exact hsep p hp
      have hmid' : ∀ q ∈ (D.map (fun p => (p.1, substIf Q p.2))).tail,
          q.1 ≠ [] := by
        intro q hq
        rw [← List.map_tail] at hq
        obtain ⟨p, hp, rfl⟩ := List.mem_map.mp hq
        exact hmid p hp
      have hreg : ∀ q ∈ D.map (fun p => (p.1, substIf Q p.2)),
          q.2 ≠ A → ¬ A <:+: q.2 := by
        intro q hq hqa
        obtain ⟨p, hp, rfl⟩ := List.mem_map.mp hq
        simp only at hqa ⊢
        rw [substIf] at hqa ⊢
        by_cases hpq : p.2 ∈ Q
        · rw [if_pos hpq] at hqa ⊢
          exact not_infix_of_digits hAne hdec' (substRun_all_digit p.2)
        · rw [if_neg hpq] at hqa ⊢
          intro hinf
          have hmem' : p.2 ∈ A :: l' := by
            rcases List.mem_append.mp (hmem p hp) with h0 | h0
            · exact absurd h0 hpq
            · exact h0
          have hmem'' : p.2 ∈ l' := by
            rcases List.mem_cons.mp hmem' with h0 | h0
            · exact absurd h0 hqa
            · exact h0
          have hrel : lenGE A p.2 :=
            List.rel_of_pairwise_cons (List.pairwise_append.mp hsort).2.1 hmem''
          exact hqa (List.IsInfix.eq_of_length hinf
            (Nat.le_antisymm hinf.length_le hrel)).symm
      rw [replaceAll_flat A (natDigits (transvalueMan A)) hAne hAnum
        (D.map (fun p => (p.1, substIf Q p.2))) send hsep' hsend hmid' hreg]
      rw [List.map_map]
      have hcongr2 : D.map ((fun q => (q.1, if q.2 = A then
            natDigits (transvalueMan A) else q.2)) ∘
            (fun p => (p.1, substIf Q p.2))) =
          D.map (fun p => (p.1, substIf (Q ++ [A]) p.2)) := by
        refine List.map_congr_left ?_
        intro p hp
        simp only [Function.comp]
        by_cases hpa : p.2 = A
        · rw [hpa]
          simp only [substIf]
          rw [if_neg hAQ, if_pos rfl,
            if_pos (show A ∈ Q ++ [A] by simp)]
          rw [substRun, if_neg hdec]
        · have hne2 : substIf Q p.2 ≠ A := by
            rw [substIf]
            by_cases hq : p.2 ∈ Q
            · rw [if_pos hq]
              intro heq
              exact not_infix_of_digits hAne hdec' (substRun_all_digit p.2)
                (heq ▸ List.infix_refl A)
            · rw [if_neg hq]
              exact hpa
          rw [if_neg hne2]
          have hiff : p.2 ∈ Q ++ [A] ↔ p.2 ∈ Q := by simp [hpa]
          simp only [substIf]
          rw [if_congr hiff rfl rfl]
      rw [hcongr2]
      exact hih

/-- Claim C6: processing the distinct maximal numeral runs longest-first
makes the run substitution non-overlapping and order-independent: for every
host string, any two length-descending orderings of its distinct runs give
the same result of the replacement fold (so the set-iteration tie order
among equal-length runs is immaterial), and in any length-descending
ordering a run that is a proper substring of a longer run is replaced
strictly after that longer run. -/
theorem kansuji_replace_order_independent (s : List Char)
    (l1 l2 : List (List Char))
    (h1 : l1.Perm (runsOf s).dedup) (h2 : l2.Perm (runsOf s).dedup)
    (hs1 : List.Pairwise lenGE l1) (hs2 : List.Pairwise lenGE l2) :
    l1.foldl applyRun s = l2.foldl applyRun s
    ∧ ∀ i j, ∀ hi : i < l1.length, ∀ hj : j < l1.length,
        l1.get ⟨i, hi⟩ <:+: l1.get ⟨j, hj⟩ → l1.get ⟨i, hi⟩ ≠ l1.get ⟨j, hj⟩ →
        j < i := by
  constructor
  · have key : ∀ l : List (List Char), l.Perm (runsOf s).dedup →
        List.Pairwise lenGE l →
        l.foldl applyRun s =
          flat ((decompose s).1.map (fun p => (p.1, substRun p.2)))
            (decompose s).2 := by
      intro l hperm hsort
      have hnd : l.Nodup := hperm.nodup_iff.mpr (List.nodup_dedup _)
      have hinit : s = flat ((decompose s).1.map
          (fun p => (p.1, substIf [] p.2))) (decompose s).2 := by
        conv_lhs => rw [← decompose_flat s]
        congr 1
        rw [show (decompose s).1.map (fun p => (p.1, substIf [] p.2)) =
            (decompose s).1 from by
          have hmapid : (decompose s).1.map (fun p => (p.1, substIf [] p.2)) =
              (decompose s).1.map id :=
            List.map_congr_left (fun p hp => by simp [substIf])
          rw [hmapid, List.map_id]]
      conv_lhs => rw [hinit]
      rw [foldl_applyRun_to_subst (decompose s).1 (decompose s).2
        (fun p hp => (decompose_pairs s p hp).1) (decompose_send s)
        (decompose_tail_sep s)
        (fun p hp => ⟨(decompose_pairs s p hp).2.1,
          (decompose_pairs s p hp).2.2⟩)
        l []
        (by simpa using hnd)
        (by
          intro p hp
          simp only [List.nil_append]
          exact hperm.mem_iff.mpr (List.mem_dedup.mpr
            (List.mem_map_of_mem _ hp)))
        (by
          intro a ha
          simp only [List.nil_append] at ha
          have : a ∈ runsOf s := List.mem_dedup.mp (hperm.mem_iff.mp ha)
          obtain ⟨p, hp, hpa⟩ := List.mem_map.mp this
          exact ⟨p, hp, hpa⟩)
        (by simpa using hsort)]
      refine congrArg (fun X => flat X (decompose s).2) ?_
      refine List.map_congr_left ?_
      intro p hp
      have hmeml : p.2 ∈ [] ++ l := by
        simp only [List.nil_append]
        exact hperm.mem_iff.mpr (List.mem_dedup.mpr (List.mem_map_of_mem _ hp))
      rw [substIf, if_pos hmeml]
    exact (key l1 h1 hs1).trans (key l2 h2 hs2).symm
  · intro i j hi hj hinf hne
    rcases Nat.lt_trichotomy i j with hij | hij | hij
    · exfalso
      have hrel : lenGE (l1.get ⟨i, hi⟩) (l1.get ⟨j, hj⟩) :=
        List.pairwise_iff_get.mp hs1 ⟨i, hi⟩ ⟨j, hj⟩ hij
      exact hne (List.IsInfix.eq_of_length hinf
        (Nat.le_antisymm hinf.length_le hrel))
    · exfalso
      subst hij
      exact hne rfl
    · exact hij

/-- Witness for C6: the host `十x百` has the two equal-length runs `十` and
`百`; both processing orders give the same replaced string. -/
theorem kansuji_replace_order_independent_w :
    [['十'], ['百']].foldl applyRun ("十x百".data) =
      [['百'], ['十']].foldl applyRun ("十x百".data) :=
  (kansuji_replace_order_independent ("十x百".data) [['十'], ['百']]
    [['百'], ['十']] (by decide) (by decide) (by decide) (by decide)).1

end NameAgg
